import Mathlib

/-!
Verification development for the configuration-coordinate / SRH-capture core
of `pymatgen-analysis-defects` as described by its specification.

The repository excerpt contains only example notebooks
(`tutorials/3-nonradiative-capture.ipynb`, `docs/source/content/photo-conduct.ipynb`)
and packaging configuration; the library implementation
(`pymatgen.analysis.defects.ccd`: `HarmonicDefect`, `SRHCapture`,
`get_SRH_coefficient`, `HarmonicDefect.get_elph_me`,
`HarmonicDefect.get_dielectric_function`) is not part of the excerpt.
All definitions below are therefore modelled from the specification's words,
with the notebooks used as caller-side evidence.  Rational numbers stand in
for floating-point values; frequencies are tracked through their squares
(the fitted curvature `omega^2`) so that every definition stays executable.
-/

/-! ### Complex scalars as rational pairs -/

/-- Complex scalar modelled as a pair (real part, imaginary part) of rationals. -/
abbrev Cx : Type := ℚ × ℚ

/-- Componentwise addition of complex scalars. -/
def cAdd (z w : Cx) : Cx := (z.1 + w.1, z.2 + w.2)

/-- Componentwise subtraction of complex scalars. -/
def cSub (z w : Cx) : Cx := (z.1 - w.1, z.2 - w.2)

/-- Componentwise negation of a complex scalar. -/
def cNeg (z : Cx) : Cx := (-z.1, -z.2)

/-- Scaling of a complex scalar by a rational. -/
def cSmul (c : ℚ) (z : Cx) : Cx := (c * z.1, c * z.2)

/-- Squared magnitude of a complex scalar. -/
def cMagSq (z : Cx) : ℚ := z.1 ^ 2 + z.2 ^ 2

/-- Sum of a list of complex scalars. -/
def csum (l : List Cx) : Cx := l.foldr cAdd ((0 : ℚ), (0 : ℚ))

/-! ### Harmonic potential-energy-surface fit

Modelled from the spec (section 4.2, HarmonicPES builder): a least-squares fit
of the samples `(Q, E)` to the model `E = E0 + 1/2 * omega^2 * Q^2`.
Writing `x = Q^2 / 2` this is an ordinary linear least-squares problem
`E = a + b * x` with `a = E0` and `b = omega^2` (the curvature).  The
implementation of the builder is not in the excerpt, so the fit is realised by
the closed-form normal-equations solution; when the design matrix is rank
deficient (all `x` equal, e.g. a single sample) the minimum-norm least-squares
solution is used, mirroring the `numpy.linalg.lstsq` behaviour that a
numerics library would exhibit on an underdetermined fit. -/

/-- Sum of `f` over a sample list. -/
def sumBy (l : List (ℚ × ℚ)) (f : ℚ × ℚ → ℚ) : ℚ := (l.map f).sum

/-- Basis value `x = Q^2 / 2` for a sample `(Q, E)`. -/
def xOf (p : ℚ × ℚ) : ℚ := p.1 ^ 2 / 2

/-- Number of samples, as a rational. -/
def sN (l : List (ℚ × ℚ)) : ℚ := (l.length : ℚ)

/-- Sum of the basis values `Q^2 / 2`. -/
def sX (l : List (ℚ × ℚ)) : ℚ := sumBy l xOf

/-- Sum of the energies. -/
def sY (l : List (ℚ × ℚ)) : ℚ := sumBy l (fun p => p.2)

/-- Sum of squared basis values. -/
def sXX (l : List (ℚ × ℚ)) : ℚ := sumBy l (fun p => xOf p ^ 2)

/-- Sum of basis-value/energy products. -/
def sXY (l : List (ℚ × ℚ)) : ℚ := sumBy l (fun p => xOf p * p.2)

/-- Determinant of the 2x2 normal matrix of the least-squares problem. -/
def normalDet (l : List (ℚ × ℚ)) : ℚ := sN l * sXX l - sX l ^ 2

/-- Result of the harmonic fit: the reference energy `E0` and the curvature
`omega^2` of the parabola `E0 + 1/2 * omega^2 * Q^2`. -/
structure PESFit where
  E0 : ℚ
  curvature : ℚ
deriving DecidableEq

/-- Modelled from the spec: the least-squares fit of `E = E0 + 1/2 c Q^2`.
In the nondegenerate case this is the unique normal-equations solution; in the
degenerate (underdetermined) case it is the minimum-norm least-squares
solution, so the fit is total and a fit on a single sample still yields a
(physically meaningless) value. -/
def fitHarmonic (l : List (ℚ × ℚ)) : PESFit :=
  if normalDet l = 0 then
    if sN l = 0 then ⟨0, 0⟩
    else
      ⟨(sY l / sN l) / (1 + (sX l / sN l) ^ 2),
       (sY l / sN l) * (sX l / sN l) / (1 + (sX l / sN l) ^ 2)⟩
  else
    ⟨(sY l * sXX l - sX l * sXY l) / normalDet l,
     (sN l * sXY l - sX l * sY l) / normalDet l⟩

/-- Error raised by the PES builder. -/
inductive PESError where
  | unphysicalPES
deriving DecidableEq

/-- Modelled from the spec: the HarmonicPES builder.  Performs the
least-squares harmonic fit and succeeds only when the fitted curvature
`omega^2` is strictly positive; a non-positive curvature signals the fatal
"unphysical PES" condition instead of returning a value. -/
def buildHarmonicPES (l : List (ℚ × ℚ)) : Except PESError PESFit :=
  if 0 < (fitHarmonic l).curvature then .ok (fitHarmonic l)
  else .error .unphysicalPES

/-- Sum of squared residuals of the model `E = a + b * (Q^2/2)` on a
sample list. -/
def sse (l : List (ℚ × ℚ)) (a b : ℚ) : ℚ :=
  sumBy l (fun p => (p.2 - a - b * xOf p) ^ 2)

/-- First residual moment (gradient of `sse` in `a`, up to a factor). -/
def res0 (l : List (ℚ × ℚ)) (a b : ℚ) : ℚ :=
  sumBy l (fun p => p.2 - a - b * xOf p)

/-- Second residual moment (gradient of `sse` in `b`, up to a factor). -/
def res1 (l : List (ℚ × ℚ)) (a b : ℚ) : ℚ :=
  sumBy l (fun p => xOf p * (p.2 - a - b * xOf p))

theorem sumBy_nil (f : ℚ × ℚ → ℚ) : sumBy [] f = 0 := rfl

theorem sumBy_cons (p : ℚ × ℚ) (l : List (ℚ × ℚ)) (f : ℚ × ℚ → ℚ) :
    sumBy (p :: l) f = f p + sumBy l f := by
  simp [sumBy]

theorem res0_eq (l : List (ℚ × ℚ)) (a b : ℚ) :
    res0 l a b = sY l - sN l * a - b * sX l := by
  induction l with
  | nil => simp [res0, sY, sN, sX, sumBy]
  | cons p t ih =>
      simp only [res0, sY, sN, sX, sumBy_cons, List.length_cons] at *
      push_cast
      linarith [ih]

theorem res1_eq (l : List (ℚ × ℚ)) (a b : ℚ) :
    res1 l a b = sXY l - a * sX l - b * sXX l := by
  induction l with
  | nil => simp [res1, sXY, sX, sXX, sumBy]
  | cons p t ih =>
      simp only [res1, sXY, sX, sXX, sumBy_cons] at *
      nlinarith [ih]

theorem fit_normal_equations (l : List (ℚ × ℚ)) (h : normalDet l ≠ 0) :
    res0 l (fitHarmonic l).E0 (fitHarmonic l).curvature = 0 ∧
    res1 l (fitHarmonic l).E0 (fitHarmonic l).curvature = 0 := by
  have h' : sN l * sXX l - sX l ^ 2 ≠ 0 := by
    simpa [normalDet] using h
  rw [fitHarmonic, if_neg h]
  constructor
  · rw [res0_eq]
    simp only [normalDet]
    field_simp
    ring
  · rw [res1_eq]
    simp only [normalDet]
    field_simp
    ring

theorem sse_decomp (l : List (ℚ × ℚ)) (a b a' b' : ℚ) :
    sse l a' b' = sse l a b + 2 * (a - a') * res0 l a b + 2 * (b - b') * res1 l a b
      + sumBy l (fun p => ((a - a') + (b - b') * xOf p) ^ 2) := by
  induction l with
  | nil => simp [sse, res0, res1, sumBy]
  | cons p t ih =>
      simp only [sse, res0, res1, sumBy_cons] at *
      nlinarith [ih]

theorem sumBy_sq_nonneg (l : List (ℚ × ℚ)) (u v : ℚ) :
    0 ≤ sumBy l (fun p => (u + v * xOf p) ^ 2) := by
  apply List.sum_nonneg
  intro x hx
  obtain ⟨p, _, rfl⟩ := List.mem_map.mp hx
  positivity

theorem fit_is_least_squares (l : List (ℚ × ℚ)) (h : normalDet l ≠ 0) (a b : ℚ) :
    sse l (fitHarmonic l).E0 (fitHarmonic l).curvature ≤ sse l a b := by
  obtain ⟨h0, h1⟩ := fit_normal_equations l h
  have hd := sse_decomp l (fitHarmonic l).E0 (fitHarmonic l).curvature a b
  rw [h0, h1] at hd
  have hs := sumBy_sq_nonneg l ((fitHarmonic l).E0 - a) ((fitHarmonic l).curvature - b)
  linarith

/-- Claim C1: for every ordered sequence of (distortion, energy) samples the
HarmonicPES builder performs a least-squares fit of `E(Q)` to
`E0 + 1/2 * omega^2 * Q^2` (the fitted pair minimises the sum of squared
residuals), it succeeds exactly when the fitted curvature is positive, a
successful build returns the fit with `omega = sqrt(curvature)` real and
strictly positive, and a non-positive fitted curvature yields the fatal
"unphysical PES" error instead of a value. -/
theorem pes_fit_success_iff_positive_curvature
    (samples : List (ℚ × ℚ)) (h : normalDet samples ≠ 0) :
    (∀ a b : ℚ,
        sse samples (fitHarmonic samples).E0 (fitHarmonic samples).curvature
          ≤ sse samples a b)
    ∧ ((∃ fit, buildHarmonicPES samples = .ok fit) ↔
        0 < (fitHarmonic samples).curvature)
    ∧ (∀ fit, buildHarmonicPES samples = .ok fit →
        fit = fitHarmonic samples ∧ 0 < fit.curvature ∧
          0 < Real.sqrt (fit.curvature : ℝ))
    ∧ ((fitHarmonic samples).curvature ≤ 0 →
        buildHarmonicPES samples = .error PESError.unphysicalPES) := by
  have hkey : ∀ fit, buildHarmonicPES samples = .ok fit →
      fit = fitHarmonic samples ∧ 0 < fit.curvature ∧
        0 < Real.sqrt (fit.curvature : ℝ) := by
    intro fit hfit
    by_cases hc : 0 < (fitHarmonic samples).curvature
    · rw [buildHarmonicPES] at hfit
      simp only [if_pos hc, Except.ok.injEq] at hfit
      subst hfit
      exact ⟨rfl, hc, Real.sqrt_pos.mpr (by exact_mod_cast hc)⟩
    · rw [buildHarmonicPES] at hfit
      simp [if_neg hc] at hfit
  refine ⟨fit_is_least_squares samples h, ?_, hkey, ?_⟩
  · constructor
    · rintro ⟨fit, hfit⟩
      rcases hkey fit hfit with ⟨rfl, hc, -⟩
      exact hc
    · intro hc
      exact ⟨fitHarmonic samples, by rw [buildHarmonicPES, if_pos hc]⟩
  · intro hc
    rw [buildHarmonicPES]
    simp [not_lt.mpr hc]

/-- Concrete sample list with a nondegenerate design matrix, used to
exercise the PES-builder theorem. -/
def sampleA : List (ℚ × ℚ) := [(-1, 2), (0, 0), (1, 2)]

theorem pes_fit_success_iff_positive_curvature_app :
    normalDet sampleA ≠ 0 ∧
    ((∀ a b : ℚ,
        sse sampleA (fitHarmonic sampleA).E0 (fitHarmonic sampleA).curvature
          ≤ sse sampleA a b)
    ∧ ((∃ fit, buildHarmonicPES sampleA = .ok fit) ↔
        0 < (fitHarmonic sampleA).curvature)
    ∧ (∀ fit, buildHarmonicPES sampleA = .ok fit →
        fit = fitHarmonic sampleA ∧ 0 < fit.curvature ∧
          0 < Real.sqrt (fit.curvature : ℝ))
    ∧ ((fitHarmonic sampleA).curvature ≤ 0 →
        buildHarmonicPES sampleA = .error PESError.unphysicalPES)) :=
  ⟨by norm_num [normalDet, sN, sX, sXX, sumBy, xOf, sampleA],
   pes_fit_success_iff_positive_curvature sampleA
     (by norm_num [normalDet, sN, sX, sXX, sumBy, xOf, sampleA])⟩

/-- Claim C7: on the three symmetric samples with energies
`(0.10, 0.00, 0.10)` eV at `Q = (-0.1, 0, 0.1)`, the harmonic fit succeeds
and produces `omega` with `0.5 * omega^2 * 0.01 = 0.10` eV exactly (hence
within any fit tolerance); the fitted curvature is `omega^2 = 20`. -/
theorem harmonic_fit_symmetric_scenario :
    ∃ fit : PESFit,
      buildHarmonicPES [((-1 : ℚ)/10, 1/10), (0, 0), (1/10, 1/10)] = .ok fit
      ∧ fit.E0 = 0
      ∧ fit.curvature = 20
      ∧ (1/2 : ℚ) * fit.curvature * (1/100) = 1/10 := by
  have hfit : fitHarmonic [((-1 : ℚ)/10, 1/10), (0, 0), (1/10, 1/10)]
      = ⟨0, 20⟩ := by
    norm_num [fitHarmonic, normalDet, sN, sX, sY, sXX, sXY, sumBy, xOf]
  refine ⟨⟨0, 20⟩, ?_, rfl, rfl, by norm_num⟩
  rw [buildHarmonicPES, hfit]
  norm_num

/-! ### Defect band identification and HarmonicDefect construction

Modelled from the spec (sections 3 and 4.1): a `BandIndex` is a
(band, k-point, spin) triple; the `DefectBand` is one `BandIndex` per
k-point.  Detection selects, per spin channel, the channel whose candidate
bands have the lowest average localization score, and within the chosen
channel, at each k-point, the band with the lowest score inside an energy
window around the Fermi level, ties broken by closeness to the Fermi level.
The caller may supply an explicit `DefectBand`, bypassing detection. -/

/-- A (band, k-point, spin) index triple identifying one electronic state. -/
structure BandIndex where
  band : ℕ
  kpt : ℕ
  spin : ℕ
deriving DecidableEq

/-- Per-state localization and eigenvalue data supplied by the external
eigenvalue source: a localization-inverse score (lower means more
localized) and an eigenvalue per (band, k-point, spin), plus the Fermi
level. -/
structure LocalizationData where
  nbands : ℕ
  nkpts : ℕ
  score : ℕ → ℕ → ℕ → ℚ
  eig : ℕ → ℕ → ℕ → ℚ
  efermi : ℚ

/-- Modelled from the spec: at one k-point of one spin channel, select the
band with the lowest localization-inverse score among the bands whose
eigenvalue lies within the window `w` of the Fermi level; ties are broken by
closeness to the Fermi level. -/
def selectBand (loc : LocalizationData) (w : ℚ) (kpt spin : ℕ) : ℕ :=
  let cands := (List.range loc.nbands).filter
    (fun b => |loc.eig b kpt spin - loc.efermi| ≤ w)
  match cands with
  | [] => 0
  | c :: cs =>
      cs.foldl (fun best b =>
        if loc.score b kpt spin < loc.score best kpt spin
            ∨ (loc.score b kpt spin = loc.score best kpt spin
                ∧ |loc.eig b kpt spin - loc.efermi|
                    < |loc.eig best kpt spin - loc.efermi|)
        then b else best) c

/-- Modelled from the spec: the average localization-inverse score of a spin
channel's per-k-point defect candidates. -/
def spinScore (loc : LocalizationData) (w : ℚ) (spin : ℕ) : ℚ :=
  (((List.range loc.nkpts).map
    (fun k => loc.score (selectBand loc w k spin) k spin)).sum)
    / (loc.nkpts : ℚ)

/-- Modelled from the spec: choose the spin channel (0 or 1) with the lowest
average localization-inverse score. -/
def selectSpin (loc : LocalizationData) (w : ℚ) : ℕ :=
  if spinScore loc w 1 < spinScore loc w 0 then 1 else 0

/-- Modelled from the spec: localization-based detection of the defect band,
one `BandIndex` per k-point in the chosen spin channel. -/
def detectDefectBand (loc : LocalizationData) (w : ℚ) : List BandIndex :=
  (List.range loc.nkpts).map
    (fun k => ⟨selectBand loc w k (selectSpin loc w), k, selectSpin loc w⟩)

/-- A harmonic defect: the (distortion, energy) samples, the index of the
relaxed entry, the curvature `omega^2` obtained from the harmonic fit, and
the defect band. -/
structure HarmonicDefect where
  distortions : List ℚ
  energies : List ℚ
  relaxedIndex : ℕ
  omegaSq : ℚ
  defectBand : List BandIndex
deriving DecidableEq

/-- Error raised by `HarmonicDefect` construction. -/
inductive ConstructError where
  | emptySources
deriving DecidableEq

/-- Modelled from the spec and the notebooks: `HarmonicDefect.from_directories`
with directory parsing abstracted into the already-extracted (distortion,
energy) samples and the localization data of the relaxed entry.  The fitted
curvature `omega^2` is always populated from the (possibly degenerate)
least-squares fit, as the notebooks show for a single-directory source; the
defect band is the explicit override when one is supplied and the
localization-based detection otherwise.  Construction fails only on an empty
source list. -/
def HarmonicDefect.from_directories (samples : List (ℚ × ℚ)) (relaxedIndex : ℕ)
    (loc : LocalizationData) (w : ℚ) (override : Option (List BandIndex)) :
    Except ConstructError HarmonicDefect :=
  if samples = [] then .error .emptySources
  else .ok
    { distortions := samples.map Prod.fst
      energies := samples.map Prod.snd
      relaxedIndex := relaxedIndex
      omegaSq := (fitHarmonic samples).curvature
      defectBand := override.getD (detectDefectBand loc w) }

/-- Claim C8: supplying an explicit `DefectBand` bypasses localization-based
detection entirely: construction succeeds (on nonempty sources), the
resulting defect band is the supplied one verbatim, and the result does not
depend on the localization scores at all. -/
theorem explicit_defect_band_verbatim (samples : List (ℚ × ℚ)) (ri : ℕ)
    (loc loc' : LocalizationData) (w w' : ℚ) (db : List BandIndex)
    (h : samples ≠ []) :
    (∃ hd, HarmonicDefect.from_directories samples ri loc w (some db) = .ok hd
        ∧ hd.defectBand = db)
    ∧ HarmonicDefect.from_directories samples ri loc' w' (some db)
        = HarmonicDefect.from_directories samples ri loc w (some db) := by
  rw [HarmonicDefect.from_directories, HarmonicDefect.from_directories,
    if_neg h, if_neg h]
  exact ⟨⟨_, rfl, rfl⟩, rfl⟩

/-- Localization data with all scores and eigenvalues zero, used to
exercise the construction theorems. -/
def trivLoc : LocalizationData :=
  ⟨1, 1, fun _ _ _ => 0, fun _ _ _ => 0, 0⟩

/-- Second localization data set, differing from `trivLoc`, used to show
the explicit override ignores the scores. -/
def trivLoc' : LocalizationData :=
  ⟨2, 1, fun b _ _ => b, fun _ _ _ => 1, 5⟩

theorem explicit_defect_band_verbatim_app :
    sampleA ≠ [] ∧
    ((∃ hd, HarmonicDefect.from_directories sampleA 1 trivLoc 0
          (some [⟨7, 0, 1⟩]) = .ok hd
        ∧ hd.defectBand = [⟨7, 0, 1⟩])
    ∧ HarmonicDefect.from_directories sampleA 1 trivLoc' 3 (some [⟨7, 0, 1⟩])
        = HarmonicDefect.from_directories sampleA 1 trivLoc 0
            (some [⟨7, 0, 1⟩])) :=
  ⟨by simp [sampleA],
   explicit_defect_band_verbatim sampleA 1 trivLoc trivLoc' 0 3 [⟨7, 0, 1⟩]
     (by simp [sampleA])⟩

/-- Claim C10: constructing a `HarmonicDefect` from a single
(distortion, energy) sample succeeds: no "unphysical PES" or
insufficient-data error is signalled, the defect band is still auto-detected,
and `omega^2` is populated with the (physically meaningless) value of the
degenerate fit — the normal matrix of the fit is singular for one sample. -/
theorem single_sample_construction_populates_omega (q e : ℚ) (ri : ℕ)
    (loc : LocalizationData) (w : ℚ) :
    normalDet [(q, e)] = 0
    ∧ HarmonicDefect.from_directories [(q, e)] ri loc w none
        = .ok { distortions := [q], energies := [e], relaxedIndex := ri,
                omegaSq := (fitHarmonic [(q, e)]).curvature,
                defectBand := detectDefectBand loc w } := by
  constructor
  · simp only [normalDet, sN, sX, sXX, sumBy, xOf, List.map_cons, List.map_nil,
      List.sum_cons, List.sum_nil, List.length_cons, List.length_nil]
    push_cast
    ring
  · rw [HarmonicDefect.from_directories, if_neg (by simp)]
    rfl

/-! ### Electron-phonon coupling

Modelled from the spec (section 4.3) and the formula displayed in the
photo-conduct notebook:
`W_if = (eps_i - eps_f) * d<psi_f|S|psi_i>/dQ`, with the derivative of the
pseudo-wavefunction overlap taken by finite difference over the displacement
steps of the `WSWQ` overlap set; the estimate is the least-squares slope of
the overlap against the displacement, which reduces to the central
difference on symmetric steps.  At least two distinct non-zero displacement
steps are required; the computation fails otherwise. -/

/-- One parsed `WSWQ` entry: the displacement step `dQ` and, for each band
at the fixed k-point and spin of the chosen defect state, the overlap
`<psi_band | S | psi_defect(dQ)>`. -/
structure WSWQStep where
  dQ : ℚ
  overlap : ℕ → Cx

/-- The number of distinct non-zero displacement steps in an overlap set. -/
def distinctNonzeroSteps (steps : List WSWQStep) : ℕ :=
  (((steps.map (fun s => s.dQ)).filter (fun q => q ≠ 0)).dedup).length

/-- Modelled from the spec: the finite-difference derivative of the overlap
with band `f` with respect to `Q`, as the least-squares slope of the overlap
values against the displacement steps. -/
def fdSlope (steps : List WSWQStep) (f : ℕ) : Cx :=
  let n : ℚ := (steps.length : ℚ)
  let sq : ℚ := (steps.map (fun s => s.dQ)).sum
  let sqq : ℚ := (steps.map (fun s => s.dQ ^ 2)).sum
  let sz : Cx := csum (steps.map (fun s => s.overlap f))
  let sqz : Cx := csum (steps.map (fun s => cSmul s.dQ (s.overlap f)))
  cSmul (1 / (n * sqq - sq ^ 2)) (cSub (cSmul n sqz) (cSmul sq sz))

/-- The electron-phonon matrix element: the eigenvalue difference of the
defect state and the other state times the overlap derivative. -/
def Wif (epsI epsF : ℚ) (deriv : Cx) : Cx := cSmul (epsI - epsF) deriv

/-- Error raised by the electron-phonon coupling computation. -/
inductive ElphError where
  | insufficientDisplacements
deriving DecidableEq

/-- Modelled from the spec: `HarmonicDefect.get_elph_me`.  Requires at least
two distinct non-zero displacement steps in the overlap set; on success it
returns, for each band index at the defect state's k-point, the matrix
element `W_if = (eps_i - eps_f) * d<psi_f|S|psi_i>/dQ`. -/
def get_elph_me (steps : List WSWQStep) (eps : ℕ → ℚ) (iBand nbands : ℕ) :
    Except ElphError (List Cx) :=
  if distinctNonzeroSteps steps < 2 then .error .insufficientDisplacements
  else .ok ((List.range nbands).map
    (fun f => Wif (eps iBand) (eps f) (fdSlope steps f)))

/-- Claim C3: with at least two distinct non-zero displacement steps, the
electron-phonon computation returns, for the chosen defect band, the map
sending every band index at the same k-point to the eigenvalue difference
times the finite-difference derivative of the overlap,
`W_if = (eps_i - eps_f) * d<psi_f|S|psi_i>/dQ`; and on displacement steps
symmetric around zero (the three-point set `{-t, 0, t}` and the two-point
set `{-t, t}`) the derivative is the central-difference estimate
`(z(t) - z(-t)) / (2t)`. -/
theorem elph_me_fd_formula (steps : List WSWQStep) (eps : ℕ → ℚ)
    (iBand nbands : ℕ) (h2 : 2 ≤ distinctNonzeroSteps steps) :
    get_elph_me steps eps iBand nbands
      = .ok ((List.range nbands).map
          (fun f => Wif (eps iBand) (eps f) (fdSlope steps f)))
    ∧ (∀ (t : ℚ) (zm z0 zp : ℕ → Cx), t ≠ 0 → ∀ f,
        fdSlope [⟨-t, zm⟩, ⟨0, z0⟩, ⟨t, zp⟩] f
          = cSmul (1 / (2 * t)) (cSub (zp f) (zm f)))
    ∧ (∀ (t : ℚ) (zm zp : ℕ → Cx), t ≠ 0 → ∀ f,
        fdSlope [⟨-t, zm⟩, ⟨t, zp⟩] f
          = cSmul (1 / (2 * t)) (cSub (zp f) (zm f))) := by
  refine ⟨?_, ?_, ?_⟩
  · rw [get_elph_me, if_neg (by omega)]
  · intro t zm z0 zp ht f
    simp only [fdSlope, csum, cAdd, cSmul, cSub, List.map_cons, List.map_nil,
      List.foldr_cons, List.foldr_nil, List.sum_cons, List.sum_nil,
      List.length_cons, List.length_nil]
    rw [Prod.ext_iff]
    constructor <;> (field_simp; ring)
  · intro t zm zp ht f
    simp only [fdSlope, csum, cAdd, cSmul, cSub, List.map_cons, List.map_nil,
      List.foldr_cons, List.foldr_nil, List.sum_cons, List.sum_nil,
      List.length_cons, List.length_nil]
    rw [Prod.ext_iff]
    constructor <;> (field_simp; ring)

/-- Concrete overlap set with two distinct non-zero displacement steps,
used to exercise the coupling theorems. -/
def stepsB : List WSWQStep := [⟨-1, fun _ => (0, 0)⟩, ⟨1, fun _ => (1, 0)⟩]

theorem elph_me_fd_formula_app :
    2 ≤ distinctNonzeroSteps stepsB ∧
    (get_elph_me stepsB (fun b => (b : ℚ)) 0 2
      = .ok ((List.range 2).map
          (fun (f : ℕ) => Wif ((0 : ℕ) : ℚ) (f : ℚ) (fdSlope stepsB f)))
    ∧ (∀ (t : ℚ) (zm z0 zp : ℕ → Cx), t ≠ 0 → ∀ f,
        fdSlope [⟨-t, zm⟩, ⟨0, z0⟩, ⟨t, zp⟩] f
          = cSmul (1 / (2 * t)) (cSub (zp f) (zm f)))
    ∧ (∀ (t : ℚ) (zm zp : ℕ → Cx), t ≠ 0 → ∀ f,
        fdSlope [⟨-t, zm⟩, ⟨t, zp⟩] f
          = cSmul (1 / (2 * t)) (cSub (zp f) (zm f)))) :=
  ⟨by norm_num [distinctNonzeroSteps, stepsB],
   elph_me_fd_formula stepsB (fun b => (b : ℚ)) 0 2
     (by norm_num [distinctNonzeroSteps, stepsB])⟩

/-- Claim C5: an overlap set with fewer than two distinct non-zero
displacement steps makes the electron-phonon computation fail with the
explicit insufficient-displacements error; it never produces a value (no
silent fallback) in that case. -/
theorem elph_insufficient_steps_error (steps : List WSWQStep) (eps : ℕ → ℚ)
    (iBand nbands : ℕ) (h : distinctNonzeroSteps steps < 2) :
    get_elph_me steps eps iBand nbands = .error .insufficientDisplacements
    ∧ ∀ me, get_elph_me steps eps iBand nbands ≠ .ok me := by
  have herr : get_elph_me steps eps iBand nbands
      = .error .insufficientDisplacements := by
    rw [get_elph_me, if_pos h]
  exact ⟨herr, fun me hme => by rw [herr] at hme; exact Except.noConfusion hme⟩

/-- Overlap set with a single displacement step, used to exercise the
insufficient-displacements failure. -/
def stepsC : List WSWQStep := [⟨1, fun _ => (1, 0)⟩]

theorem elph_insufficient_steps_error_app :
    distinctNonzeroSteps stepsC < 2 ∧
    (get_elph_me stepsC (fun b => (b : ℚ)) 0 2
        = .error .insufficientDisplacements
    ∧ ∀ me, get_elph_me stepsC (fun b => (b : ℚ)) 0 2 ≠ .ok me) :=
  ⟨by norm_num [distinctNonzeroSteps, stepsC],
   elph_insufficient_steps_error stepsC (fun b => (b : ℚ)) 0 2
     (by norm_num [distinctNonzeroSteps, stepsC])⟩

/-- Claim C6: for fixed overlap data, swapping the initial and final
eigenvalue labels in the electron-phonon matrix element flips its sign and
leaves its squared magnitude unchanged. -/
theorem elph_antisymmetry (steps : List WSWQStep) (eps : ℕ → ℚ) (i f b : ℕ) :
    Wif (eps f) (eps i) (fdSlope steps b)
      = cNeg (Wif (eps i) (eps f) (fdSlope steps b))
    ∧ cMagSq (Wif (eps f) (eps i) (fdSlope steps b))
      = cMagSq (Wif (eps i) (eps f) (fdSlope steps b)) := by
  constructor
  · simp only [Wif, cSmul, cNeg]
    rw [Prod.ext_iff]
    constructor <;> ring
  · simp only [Wif, cSmul, cMagSq]
    ring

/-! ### SRH capture-coefficient engine

Modelled from the spec (section 4.5): the engine combines the squared
electron-phonon matrix element with Franck-Condon phonon-overlap factors of
the two harmonic oscillators via a Boltzmann-weighted sum over initial
vibrational occupation numbers, producing one capture coefficient per
requested temperature, aligned with the input temperature array.  The
implementation is not in the excerpt, so executable rational surrogates
stand in for the analytic ingredients: a truncated Taylor polynomial of the
exponential gives the Boltzmann factor, the Huang-Rhys closed form (with the
squared frequency in place of the frequency) gives the Franck-Condon
weights, and a Lorentzian-type rational weight models the energy-conserving
line shape at the offset `dE`. -/

/-- Degree-four Taylor polynomial of the exponential, used as the executable
surrogate for `exp` on non-negative arguments. -/
def expPoly (x : ℚ) : ℚ := 1 + x + x ^ 2 / 2 + x ^ 3 / 6 + x ^ 4 / 24

/-- Executable surrogate for `exp (-x)` on non-negative `x`. -/
def expNeg (x : ℚ) : ℚ := 1 / expPoly x

/-- The dimensionless thermal argument of the Boltzmann factor (the squared
frequency standing in for `hbar * omega / kB`, divided by the temperature). -/
def thermalArg (omegaSq T : ℚ) : ℚ := omegaSq / T

/-- Huang-Rhys-type factor built from the relative displacement of the two
potential-energy-surface minima. -/
def huangRhys (omegaSq dQ : ℚ) : ℚ := omegaSq * dQ ^ 2 / 2

/-- Franck-Condon weight of the `n`-th final vibrational level in the
Huang-Rhys closed form. -/
def fcFactor (S : ℚ) (n : ℕ) : ℚ := expNeg S * S ^ n / (Nat.factorial n : ℚ)

/-- Energy-conservation line-shape weight for the transition between initial
level `m` and final level `n` at zero-phonon-line offset `dE`. -/
def energyWeight (dE wI wF : ℚ) (m n : ℕ) : ℚ :=
  1 / (1 + (dE + (m : ℚ) * wI - (n : ℚ) * wF) ^ 2)

/-- Modelled from the spec: the capture coefficient at one temperature — the
squared electron-phonon matrix element times the Boltzmann-weighted sum over
initial vibrational levels of the Franck-Condon and line-shape weights of
the final levels, truncated at `M` levels. -/
def srhCoeffAtT (Wsq wI wF dQ dE : ℚ) (M : ℕ) (T : ℚ) : ℚ :=
  Wsq * ((List.range M).map (fun m =>
    expNeg (thermalArg wI T) ^ m * (1 - expNeg (thermalArg wI T)) *
      ((List.range M).map (fun n =>
        fcFactor (huangRhys wF dQ) n * energyWeight dE wI wF m n)).sum)).sum

/-- Error raised by the SRH coefficient computation. -/
inductive SRHError where
  | mismatchedDefectBands
deriving DecidableEq

/-- Modelled from the spec: `get_SRH_coefficient`.  Requires the initial and
final `HarmonicDefect` to share a compatible defect band (same k-point
count), signalling the mismatch condition otherwise; on success it returns
one coefficient per requested temperature, in the order of the input
temperature array. -/
def get_SRH_coefficient (initial final : HarmonicDefect) (Wsq dQ dE : ℚ)
    (M : ℕ) (Ts : List ℚ) : Except SRHError (List ℚ) :=
  if initial.defectBand.length ≠ final.defectBand.length then
    .error .mismatchedDefectBands
  else
    .ok (Ts.map (srhCoeffAtT Wsq initial.omegaSq final.omegaSq dQ dE M))

theorem expPoly_pos {x : ℚ} (hx : 0 ≤ x) : 0 < expPoly x := by
  have h2 : 0 ≤ x ^ 2 := sq_nonneg x
  have h3 : 0 ≤ x ^ 3 := pow_nonneg hx 3
  have h4 : 0 ≤ x ^ 4 := pow_nonneg hx 4
  simp only [expPoly]
  linarith

theorem one_le_expPoly {x : ℚ} (hx : 0 ≤ x) : 1 ≤ expPoly x := by
  have h2 : 0 ≤ x ^ 2 := sq_nonneg x
  have h3 : 0 ≤ x ^ 3 := pow_nonneg hx 3
  have h4 : 0 ≤ x ^ 4 := pow_nonneg hx 4
  simp only [expPoly]
  linarith

theorem expNeg_pos {x : ℚ} (hx : 0 ≤ x) : 0 < expNeg x :=
  div_pos one_pos (expPoly_pos hx)

theorem expNeg_le_one {x : ℚ} (hx : 0 ≤ x) : expNeg x ≤ 1 := by
  rw [expNeg, div_le_one (expPoly_pos hx)]
  exact one_le_expPoly hx

theorem fcFactor_nonneg {S : ℚ} (hS : 0 ≤ S) (n : ℕ) : 0 ≤ fcFactor S n := by
  rw [fcFactor]
  apply div_nonneg
  · exact mul_nonneg (expNeg_pos hS).le (pow_nonneg hS n)
  · positivity

theorem energyWeight_nonneg (dE wI wF : ℚ) (m n : ℕ) :
    0 ≤ energyWeight dE wI wF m n := by
  rw [energyWeight]
  positivity

theorem srhCoeffAtT_nonneg (Wsq wI wF dQ dE : ℚ) (M : ℕ) (T : ℚ)
    (hW : 0 ≤ Wsq) (hwI : 0 ≤ wI) (hwF : 0 ≤ wF) (hT : 0 < T) :
    0 ≤ srhCoeffAtT Wsq wI wF dQ dE M T := by
  have harg : 0 ≤ thermalArg wI T := div_nonneg hwI hT.le
  have hS : 0 ≤ huangRhys wF dQ := by rw [huangRhys]; positivity
  rw [srhCoeffAtT]
  apply mul_nonneg hW
  apply List.sum_nonneg
  intro x hx
  obtain ⟨m, -, rfl⟩ := List.mem_map.mp hx
  apply mul_nonneg
  · exact mul_nonneg (pow_nonneg (expNeg_pos harg).le m)
      (by linarith [expNeg_le_one harg])
  · apply List.sum_nonneg
    intro y hy
    obtain ⟨n, -, rfl⟩ := List.mem_map.mp hy
    exact mul_nonneg (fcFactor_nonneg hS n) (energyWeight_nonneg dE wI wF m n)

/-- Claim C2: for compatible initial/final `HarmonicDefect` instances and a
physically valid input pair, the SRH computation returns exactly one
coefficient per requested temperature, in the order of the input temperature
array (the `i`-th output is the coefficient at the `i`-th temperature), and
every coefficient is non-negative (and, being rational, finite). -/
theorem srh_coefficients_aligned_and_nonneg
    (initial final : HarmonicDefect) (Wsq dQ dE : ℚ) (M : ℕ) (Ts : List ℚ)
    (hband : initial.defectBand.length = final.defectBand.length)
    (hW : 0 ≤ Wsq) (hwI : 0 < initial.omegaSq) (hwF : 0 < final.omegaSq)
    (hT : ∀ T ∈ Ts, 0 < T) :
    get_SRH_coefficient initial final Wsq dQ dE M Ts
      = .ok (Ts.map (srhCoeffAtT Wsq initial.omegaSq final.omegaSq dQ dE M))
    ∧ (Ts.map (srhCoeffAtT Wsq initial.omegaSq final.omegaSq dQ dE M)).length
        = Ts.length
    ∧ (∀ i : Fin Ts.length,
        (Ts.map (srhCoeffAtT Wsq initial.omegaSq final.omegaSq dQ dE M)).get
            (Fin.cast (by simp) i)
          = srhCoeffAtT Wsq initial.omegaSq final.omegaSq dQ dE M (Ts.get i))
    ∧ (∀ c ∈ Ts.map (srhCoeffAtT Wsq initial.omegaSq final.omegaSq dQ dE M),
        0 ≤ c) := by
  refine ⟨?_, by simp, ?_, ?_⟩
  · rw [get_SRH_coefficient, if_neg (not_ne_iff.mpr hband)]
  · intro i
    simp
  · intro c hc
    obtain ⟨T, hTmem, rfl⟩ := List.mem_map.mp hc
    exact srhCoeffAtT_nonneg _ _ _ _ _ _ _ hW hwI.le hwF.le (hT T hTmem)

/-- Concrete initial-state harmonic defect used to exercise the SRH
theorems. -/
def hdInit : HarmonicDefect := ⟨[0], [0], 0, 1, [⟨5, 0, 1⟩]⟩

/-- Concrete final-state harmonic defect compatible with `hdInit`. -/
def hdFinal : HarmonicDefect := ⟨[0], [0], 0, 2, [⟨6, 0, 1⟩]⟩

theorem srh_coefficients_aligned_and_nonneg_app :
    (hdInit.defectBand.length = hdFinal.defectBand.length
      ∧ (0 : ℚ) ≤ 1 ∧ 0 < hdInit.omegaSq ∧ 0 < hdFinal.omegaSq
      ∧ ∀ T ∈ [(1 : ℚ)], 0 < T)
    ∧ (get_SRH_coefficient hdInit hdFinal 1 0 (3/10) 2 [1]
        = .ok ([(1 : ℚ)].map
            (srhCoeffAtT 1 hdInit.omegaSq hdFinal.omegaSq 0 (3/10) 2))
    ∧ ([(1 : ℚ)].map
          (srhCoeffAtT 1 hdInit.omegaSq hdFinal.omegaSq 0 (3/10) 2)).length
        = [(1 : ℚ)].length
    ∧ (∀ i : Fin [(1 : ℚ)].length,
        ([(1 : ℚ)].map
            (srhCoeffAtT 1 hdInit.omegaSq hdFinal.omegaSq 0 (3/10) 2)).get
            (Fin.cast (by simp) i)
          = srhCoeffAtT 1 hdInit.omegaSq hdFinal.omegaSq 0 (3/10) 2
              ([(1 : ℚ)].get i))
    ∧ (∀ c ∈ [(1 : ℚ)].map
          (srhCoeffAtT 1 hdInit.omegaSq hdFinal.omegaSq 0 (3/10) 2),
        0 ≤ c)) :=
  ⟨⟨rfl, by norm_num, by norm_num [hdInit], by norm_num [hdFinal],
    by intro T hT; simp only [List.mem_singleton] at hT; subst hT; norm_num⟩,
   srh_coefficients_aligned_and_nonneg hdInit hdFinal 1 0 (3/10) 2 [1]
     rfl (by norm_num) (by norm_num [hdInit]) (by norm_num [hdFinal])
     (by intro T hT; simp only [List.mem_singleton] at hT; subst hT; norm_num)⟩

/-- Claim C4: the SRH computation produces a coefficient array exactly when
the two defect bands are compatible (same k-point count), and fails with the
explicit mismatch error whenever they are not. -/
theorem srh_defect_band_compatibility
    (initial final : HarmonicDefect) (Wsq dQ dE : ℚ) (M : ℕ) (Ts : List ℚ) :
    ((∃ cs, get_SRH_coefficient initial final Wsq dQ dE M Ts = .ok cs)
      ↔ initial.defectBand.length = final.defectBand.length)
    ∧ (initial.defectBand.length ≠ final.defectBand.length →
        get_SRH_coefficient initial final Wsq dQ dE M Ts
          = .error .mismatchedDefectBands) := by
  by_cases hb : initial.defectBand.length = final.defectBand.length
  · have hok : get_SRH_coefficient initial final Wsq dQ dE M Ts
        = .ok (Ts.map (srhCoeffAtT Wsq initial.omegaSq final.omegaSq dQ dE M)) := by
      rw [get_SRH_coefficient, if_neg (not_ne_iff.mpr hb)]
    exact ⟨⟨fun _ => hb, fun _ => ⟨_, hok⟩⟩, fun hne => absurd hb hne⟩
  · have herr : get_SRH_coefficient initial final Wsq dQ dE M Ts
        = .error .mismatchedDefectBands := by
      rw [get_SRH_coefficient, if_pos hb]
    refine ⟨⟨?_, fun heq => absurd heq hb⟩, fun _ => herr⟩
    rintro ⟨cs, hcs⟩
    rw [herr] at hcs
    exact Except.noConfusion hcs

/-- Harmonic defect whose defect band has no k-points, incompatible with
`hdFinal`, used to exercise the mismatch failure. -/
def hdMis : HarmonicDefect := ⟨[0], [0], 0, 1, []⟩

theorem srh_defect_band_compatibility_app :
    hdMis.defectBand.length ≠ hdFinal.defectBand.length ∧
    get_SRH_coefficient hdMis hdFinal 1 0 (3/10) 2 [1]
      = .error .mismatchedDefectBands :=
  ⟨by simp [hdMis, hdFinal],
   (srh_defect_band_compatibility hdMis hdFinal 1 0 (3/10) 2 [1]).2
     (by simp [hdMis, hdFinal])⟩

/-! ### Optical response (dielectric function)

Modelled from the spec (section 4.4): the independent-particle density-
density response summed over allowed transitions, separately restricted to
(valence to defect) and (defect to conduction) transition subsets by zeroing
out the dipole matrix for all other pairs before summation.  A rational
Lorentzian broadening stands in for the delta-function line shape; the
returned response is the broadened (imaginary-part) array on the requested
energy grid. -/

/-- Dipole matrix elements, eigenvalues and occupations for one Cartesian
direction pair, as supplied by the external parser. -/
structure OpticsData where
  nbands : ℕ
  eig : ℕ → ℚ
  occ : ℕ → ℚ
  dipole : ℕ → ℕ → Cx

/-- The dipole matrix with all pairs excluded by the mask zeroed out. -/
def maskedDipole (mask : ℕ → ℕ → Bool) (dip : ℕ → ℕ → Cx) (a b : ℕ) : Cx :=
  if mask a b then dip a b else ((0 : ℚ), (0 : ℚ))

/-- Rational Lorentzian line shape centred at the transition energy. -/
def lineShape (de E eta : ℚ) : ℚ := eta / ((de - E) ^ 2 + eta ^ 2)

/-- The response at one photon energy: the sum over band pairs of the
occupation difference times the squared masked dipole element times the
line shape. -/
def responseAt (od : OpticsData) (mask : ℕ → ℕ → Bool) (eta E : ℚ) : ℚ :=
  ((List.range od.nbands).map (fun a =>
    ((List.range od.nbands).map (fun b =>
      (od.occ a - od.occ b) * cMagSq (maskedDipole mask od.dipole a b)
        * lineShape (od.eig b - od.eig a) E eta)).sum)).sum

/-- Transition-class mask for (valence band to defect) transitions. -/
def transVBM (iD : ℕ) (a b : ℕ) : Bool := b == iD && a != iD

/-- Transition-class mask for (defect to conduction band) transitions. -/
def transCBM (iD : ℕ) (a b : ℕ) : Bool := a == iD && b != iD

/-- Modelled from the spec: `get_dielectric_function`.  Returns the energy
grid together with the two response arrays, one restricted to the
(valence to defect) transitions and one to the (defect to conduction)
transitions, each further restricted by the caller's dipole mask. -/
def get_dielectric_function (od : OpticsData) (iD : ℕ)
    (mask : ℕ → ℕ → Bool) (eta : ℚ) (grid : List ℚ) :
    List ℚ × List ℚ × List ℚ :=
  (grid,
   grid.map (responseAt od (fun a b => mask a b && transVBM iD a b) eta),
   grid.map (responseAt od (fun a b => mask a b && transCBM iD a b) eta))

theorem responseAt_all_masked (od : OpticsData) (mask : ℕ → ℕ → Bool)
    (eta E : ℚ) (hmask : ∀ a b, mask a b = false) :
    responseAt od mask eta E = 0 := by
  rw [responseAt]
  apply List.sum_eq_zero
  intro x hx
  obtain ⟨a, -, rfl⟩ := List.mem_map.mp hx
  apply List.sum_eq_zero
  intro y hy
  obtain ⟨b, -, rfl⟩ := List.mem_map.mp hy
  rw [maskedDipole, hmask a b]
  simp [cMagSq]

/-- Claim C9: a dielectric-function query whose dipole mask excludes all
transitions returns response arrays that are identically zero over the
whole energy grid, for both transition classes. -/
theorem dielectric_all_masked_zero (od : OpticsData) (iD : ℕ)
    (mask : ℕ → ℕ → Bool) (eta : ℚ) (grid : List ℚ)
    (hmask : ∀ a b, mask a b = false) :
    (get_dielectric_function od iD mask eta grid).1 = grid
    ∧ (∀ x ∈ (get_dielectric_function od iD mask eta grid).2.1, x = 0)
    ∧ (∀ x ∈ (get_dielectric_function od iD mask eta grid).2.2, x = 0) := by
  refine ⟨rfl, ?_, ?_⟩
  · intro x hx
    obtain ⟨E, -, rfl⟩ :=
      List.mem_map.mp (by simpa [get_dielectric_function] using hx)
    exact responseAt_all_masked od _ eta E (by simp [hmask])
  · intro x hx
    obtain ⟨E, -, rfl⟩ :=
      List.mem_map.mp (by simpa [get_dielectric_function] using hx)
    exact responseAt_all_masked od _ eta E (by simp [hmask])

/-- Concrete optics data used to exercise the all-masked query. -/
def odA : OpticsData := ⟨2, fun b => (b : ℚ), fun b => 1 - (b : ℚ), fun _ _ => (1, 1)⟩

theorem dielectric_all_masked_zero_app :
    (∀ a b : ℕ, (fun _ _ => false) a b = false) ∧
    ((get_dielectric_function odA 1 (fun _ _ => false) (1/10) [0, 1, 2]).1
        = [0, 1, 2]
    ∧ (∀ x ∈ (get_dielectric_function odA 1 (fun _ _ => false) (1/10)
          [0, 1, 2]).2.1, x = 0)
    ∧ (∀ x ∈ (get_dielectric_function odA 1 (fun _ _ => false) (1/10)
          [0, 1, 2]).2.2, x = 0)) :=
  ⟨fun _ _ => rfl,
   dielectric_all_masked_zero odA 1 (fun _ _ => false) (1/10) [0, 1, 2]
     (fun _ _ => rfl)⟩
